import Mathlib

/-!
Verification of the CIDR-merging and record-processing pipeline of
genalias.py (z-i-pfsense-alias).

The program manipulates Python ipaddress network objects.  A network of an
address family with bit width w (32 for IPv4, 128 for IPv6) is a pair of a
base address (an integer, host bits zero) and a prefix length.  We embed it
as the structure Net w below, and translate each operation the program uses
from the CPython ipaddress module and from genalias.py itself:

  * comparison used by sorted(): by (network_address, netmask),
  * subnet_of: endpoint comparisons,
  * supernet(): mask the base to one bit fewer of prefix,
  * subnets(): the two halves of a network,
  * merge / add_merged: genalias.py lines 18-43,
  * add_addr's exclusion screening: genalias.py lines 79-111 with the
    CPython address classification constants for IPv4,
  * resolve_dns: genalias.py lines 46-62, with the system resolver
    abstracted as a stream of attempt outcomes,
  * hostname extraction: urllib.parse.urlsplit(url, scheme='http').hostname,
  * the header-skipping entry of run: genalias.py lines 72-76.
-/

namespace Genalias

/-- A network value of an address family of bit width w: the pair
(network address, prefix length) that a Python ipaddress network object
carries.  Well-formedness (prefix length at most w, base below 2^w, host
bits zero) is the separate predicate WF: every object the Python library
constructs satisfies it. -/
structure Net (w : Nat) where
  base : Nat
  plen : Nat
deriving DecidableEq, Repr

variable {w : Nat}

/-- Number of addresses of the network (num_addresses). -/
def numAddresses (n : Net w) : Nat := 2 ^ (w - n.plen)

/-- One past the last address of the network. -/
def endOf (n : Net w) : Nat := n.base + 2 ^ (w - n.plen)

/-- broadcast_address of the network, as an integer. -/
def broadcast (n : Net w) : Nat := n.base + 2 ^ (w - n.plen) - 1

/-- The network covers an individual address a. -/
def covered (n : Net w) (a : Nat) : Prop := n.base ≤ a ∧ a < endOf n

instance (n : Net w) (a : Nat) : Decidable (covered n a) := by
  unfold covered; infer_instance

/-- Some network of the list covers the address a. -/
def coveredL (l : List (Net w)) (a : Nat) : Prop := ∃ n ∈ l, covered n a

instance (l : List (Net w)) (a : Nat) : Decidable (coveredL l a) := by
  unfold coveredL; infer_instance

/-- Invariant of every Python ipaddress network object: the prefix length
is at most the family width, the base address fits in w bits, and the host
bits of the base address are zero. -/
def WF (n : Net w) : Prop :=
  n.plen ≤ w ∧ n.base < 2 ^ w ∧ n.base % 2 ^ (w - n.plen) = 0

instance (n : Net w) : Decidable (WF n) := by
  unfold WF; infer_instance

/-- The integer value of the netmask of a network (2^w minus the block
size); Python network comparison orders by (network_address, netmask). -/
def netmaskInt (n : Net w) : Nat := 2 ^ w - 2 ^ (w - n.plen)

/-- The (non-strict) comparison on networks that sorted() sorts by:
lexicographic on (network_address, netmask), from _BaseNetwork.__lt__. -/
def netLe (a b : Net w) : Bool :=
  decide (a.base < b.base) ||
    (decide (a.base = b.base) && decide (netmaskInt a ≤ netmaskInt b))

/-- The sorting relation as a decidable proposition.  sorted() in Python is
a stable sort by this comparison; we model it with insertion sort, which is
extensionally the same stable sort. -/
abbrev netLeP (a b : Net w) : Prop := netLe a b = true

/-- a.subnet_of(b) from the ipaddress module: b's endpoints enclose a's. -/
def subnetOf (a b : Net w) : Bool :=
  decide (b.base ≤ a.base) && decide (broadcast a ≤ broadcast b)

/-- n.supernet() with the default prefixlen_diff of 1: a /0 network is its
own supernet; otherwise drop one prefix bit and mask the base accordingly
(network_address & (netmask << 1)). -/
def supernet (n : Net w) : Net w :=
  if n.plen = 0 then n
  else ⟨n.base / 2 ^ (w - n.plen + 1) * 2 ^ (w - n.plen + 1), n.plen - 1⟩

/-- tuple(n.subnets()) with the default prefixlen_diff of 1: the lower and
upper halves of n, each one prefix bit longer. -/
def subnetsPair (n : Net w) : Net w × Net w :=
  (⟨n.base, n.plen + 1⟩, ⟨n.base + 2 ^ (w - n.plen - 1), n.plen + 1⟩)

/-- The body of add_merged in merge (genalias.py lines 25-38), with the
accumulator list kept reversed (the head of the Lean list is the last
element of the Python list merged).  While the accumulator is non-empty:
if addr is a subnet of the last entry it is dropped; if the two halves of
addr's immediate supernet are exactly (last entry, addr), the pair
collapses into the supernet and the loop repeats; otherwise addr is
appended. -/
def addMerged : List (Net w) → Net w → List (Net w)
  | [], addr => [addr]
  | prev :: rest, addr =>
    if subnetOf addr prev then prev :: rest
    else if subnetsPair (supernet addr) = (prev, addr) then
      addMerged rest (supernet addr)
    else addr :: prev :: rest

/-- merge (genalias.py lines 18-43): sort the inputs, return [] when there
are none, and otherwise fold every network through add_merged.  The result
is reversed here because the accumulator is kept reversed. -/
def merge (addrs : List (Net w)) : List (Net w) :=
  let s := List.insertionSort netLeP addrs
  if s.isEmpty then [] else (s.foldl addMerged []).reverse

/-! ### Basic arithmetic facts about aligned blocks -/

/-- Inside an aligned block, the remainder of a point modulo the block size
is its offset from the block base. -/
lemma mod_eq_sub_of_block {k b x : Nat} (hdvd : 2 ^ k ∣ b)
    (h1 : b ≤ x) (h2 : x < b + 2 ^ k) : x % 2 ^ k = x - b := by
  obtain ⟨t, ht⟩ := hdvd
  subst ht
  have h3 : x = 2 ^ k * t + (x - 2 ^ k * t) := by omega
  calc x % 2 ^ k = (2 ^ k * t + (x - 2 ^ k * t)) % 2 ^ k := by rw [← h3]
    _ = (x - 2 ^ k * t) % 2 ^ k := by rw [Nat.mul_add_mod]
    _ = x - 2 ^ k * t := Nat.mod_eq_of_lt (by omega)

/-- Two aligned power-of-two blocks that share a point nest: the block with
the smaller size lies inside the one with the larger size. -/
lemma dyadic_nest {j k b c x : Nat} (hjk : j ≤ k) (hb : 2 ^ k ∣ b)
    (hc : 2 ^ j ∣ c) (h1 : b ≤ x) (h2 : x < b + 2 ^ k)
    (h3 : c ≤ x) (h4 : x < c + 2 ^ j) : b ≤ c ∧ c + 2 ^ j ≤ b + 2 ^ k := by
  have hbx : x % 2 ^ k = x - b := mod_eq_sub_of_block hb h1 h2
  have hcx : x % 2 ^ j = x - c := mod_eq_sub_of_block hc h3 h4
  have hdd : (2 : Nat) ^ j ∣ 2 ^ k := pow_dvd_pow 2 hjk
  have hmm : x % 2 ^ k % 2 ^ j = x % 2 ^ j := Nat.mod_mod_of_dvd x hdd
  have hsr : x % 2 ^ j ≤ x % 2 ^ k := by
    rw [← hmm]; exact Nat.mod_le _ _
  refine ⟨by omega, ?_⟩
  have hsplit : 2 ^ j * (x % 2 ^ k / 2 ^ j) + x % 2 ^ k % 2 ^ j = x % 2 ^ k :=
    Nat.div_add_mod _ _
  have hpow : (2 : Nat) ^ k = 2 ^ (k - j) * 2 ^ j := by
    rw [← pow_add]; congr 1; omega
  have hdivlt : x % 2 ^ k / 2 ^ j < 2 ^ (k - j) := by
    rw [Nat.div_lt_iff_lt_mul (Nat.two_pow_pos j)]
    calc x % 2 ^ k < 2 ^ k := Nat.mod_lt _ (Nat.two_pow_pos k)
      _ = 2 ^ (k - j) * 2 ^ j := hpow
  have hmul : 2 ^ j * (x % 2 ^ k / 2 ^ j) + 2 ^ j ≤ 2 ^ j * 2 ^ (k - j) := by
    have h5 := Nat.mul_le_mul_left (2 ^ j) (Nat.succ_le_of_lt hdivlt)
    simpa [Nat.mul_succ] using h5
  have hpow2 : 2 ^ j * 2 ^ (k - j) = 2 ^ k := by
    rw [← pow_add]; congr 1; omega
  omega

/-! ### Basic facts about networks -/

lemma base_lt_endOf (n : Net w) : n.base < endOf n := by
  have := Nat.two_pow_pos (w - n.plen); unfold endOf; omega

/-- subnet_of is exactly inclusion of the two address intervals. -/
lemma subnetOf_iff {a b : Net w} :
    subnetOf a b = true ↔ b.base ≤ a.base ∧ endOf a ≤ endOf b := by
  have ha := Nat.two_pow_pos (w - a.plen)
  have hb := Nat.two_pow_pos (w - b.plen)
  simp only [subnetOf, broadcast, Bool.and_eq_true, decide_eq_true_eq]
  unfold endOf
  omega

lemma covered_of_subnetOf {a b : Net w} {x : Nat} (h : subnetOf a b = true)
    (hx : covered a x) : covered b x := by
  rw [subnetOf_iff] at h
  unfold covered at *
  omega

/-- Two well-formed networks sharing an address nest one inside the other. -/
lemma covered_nest {a b : Net w} (ha : WF a) (hb : WF b) {x : Nat}
    (hxa : covered a x) (hxb : covered b x) :
    (a.base ≤ b.base ∧ endOf b ≤ endOf a) ∨
      (b.base ≤ a.base ∧ endOf a ≤ endOf b) := by
  obtain ⟨-, -, ha3⟩ := ha
  obtain ⟨-, -, hb3⟩ := hb
  obtain ⟨hxa1, hxa2⟩ := hxa
  obtain ⟨hxb1, hxb2⟩ := hxb
  unfold endOf at *
  rcases Nat.le_total (w - b.plen) (w - a.plen) with h | h
  · exact Or.inl (dyadic_nest h (Nat.dvd_of_mod_eq_zero ha3)
      (Nat.dvd_of_mod_eq_zero hb3) hxa1 hxa2 hxb1 hxb2)
  · exact Or.inr (dyadic_nest h (Nat.dvd_of_mod_eq_zero hb3)
      (Nat.dvd_of_mod_eq_zero ha3) hxb1 hxb2 hxa1 hxa2)

/-- The order in which the merge loop consumes networks: ascending base
address, and among equal bases the broader network first.  On well-formed
networks this is what sorting by (network_address, netmask) gives. -/
def lexLe (a b : Net w) : Prop :=
  a.base < b.base ∨ (a.base = b.base ∧ a.plen ≤ b.plen)

lemma lexLe_refl (a : Net w) : lexLe a a := by unfold lexLe; omega

lemma lexLe_trans {a b c : Net w} (h1 : lexLe a b) (h2 : lexLe b c) :
    lexLe a c := by unfold lexLe at *; omega

lemma netLe_lexLe {a b : Net w} (ha : WF a) (hb : WF b)
    (h : netLe a b = true) : lexLe a b := by
  simp only [netLe, netmaskInt, Bool.or_eq_true, Bool.and_eq_true,
    decide_eq_true_eq] at h
  rcases h with h | ⟨h1, h2⟩
  · exact Or.inl h
  · refine Or.inr ⟨h1, ?_⟩
    have hwa : (2 : Nat) ^ (w - a.plen) ≤ 2 ^ w :=
      Nat.pow_le_pow_right (by omega) (by omega)
    have hwb : (2 : Nat) ^ (w - b.plen) ≤ 2 ^ w :=
      Nat.pow_le_pow_right (by omega) (by omega)
    have h3 : (2 : Nat) ^ (w - b.plen) ≤ 2 ^ (w - a.plen) := by omega
    have h4 : w - b.plen ≤ w - a.plen :=
      (Nat.pow_le_pow_iff_right (by omega)).mp h3
    obtain ⟨ha1, -, -⟩ := ha
    obtain ⟨hb1, -, -⟩ := hb
    omega

lemma netLe_of_base_lt {a b : Net w} (h : a.base < b.base) :
    netLe a b = true := by
  simp only [netLe, Bool.or_eq_true, decide_eq_true_eq]
  exact Or.inl h

lemma netLe_trans (a b c : Net w) (h1 : netLe a b = true)
    (h2 : netLe b c = true) : netLe a c = true := by
  simp only [netLe, Bool.or_eq_true, Bool.and_eq_true, decide_eq_true_eq]
    at *
  omega

lemma netLe_total (a b : Net w) : (netLe a b || netLe b a) = true := by
  simp only [netLe, Bool.or_eq_true, Bool.and_eq_true, decide_eq_true_eq]
  omega

instance : IsTotal (Net w) netLeP :=
  ⟨fun a b => Bool.or_eq_true _ _ |>.mp (netLe_total a b)⟩

instance : IsTrans (Net w) netLeP := ⟨netLe_trans⟩

/-! ### The sibling-collapse check -/

/-- Two networks are the exact two halves of a common valid parent one
prefix bit wider: same prefix length, the second the upper half, the first
aligned so the parent has its host bits zero.  This is when the merge loop
may combine them. -/
def CanCombine (m n : Net w) : Prop :=
  0 < m.plen ∧ n.plen = m.plen ∧ n.base = m.base + 2 ^ (w - m.plen) ∧
    m.base % 2 ^ (w - m.plen + 1) = 0

instance (m n : Net w) : Decidable (CanCombine m n) := by
  unfold CanCombine; infer_instance

lemma canCombine_base {m n : Net w} (h : CanCombine m n) :
    n.base = endOf m := h.2.2.1

/-- Unfolding of a successful collapse check
tuple(addr.supernet().subnets()) == (prev, addr) for a well-formed addr. -/
lemma check_eq_elim {prev addr : Net w} (hwf : WF addr)
    (h : subnetsPair (supernet addr) = (prev, addr)) :
    0 < addr.plen ∧ prev.plen = addr.plen ∧
      supernet addr = ⟨prev.base, addr.plen - 1⟩ ∧
      addr.base = prev.base + 2 ^ (w - addr.plen) ∧
      prev.base % 2 ^ (w - addr.plen + 1) = 0 ∧
      WF prev ∧ WF (supernet addr) := by
  obtain ⟨hw1, hw2, hw3⟩ := hwf
  by_cases hp : addr.plen = 0
  · exfalso
    rw [supernet, if_pos hp, subnetsPair, Prod.mk.injEq] at h
    have h2 : addr.plen + 1 = addr.plen := congrArg Net.plen h.2
    omega
  · have hplt : 0 < addr.plen := Nat.pos_of_ne_zero hp
    rw [supernet, if_neg hp, subnetsPair, Prod.mk.injEq] at h
    have hpp1 : addr.plen - 1 + 1 = addr.plen := by omega
    have hexp : w - (addr.plen - 1) - 1 = w - addr.plen := by omega
    have hb1 : addr.base / 2 ^ (w - addr.plen + 1) * 2 ^ (w - addr.plen + 1)
        = prev.base := congrArg Net.base h.1
    have hp1 : addr.plen - 1 + 1 = prev.plen := congrArg Net.plen h.1
    have hb2 : addr.base / 2 ^ (w - addr.plen + 1) * 2 ^ (w - addr.plen + 1)
        + 2 ^ (w - (addr.plen - 1) - 1) = addr.base := congrArg Net.base h.2
    rw [hexp, hb1] at hb2
    have hdvd : 2 ^ (w - addr.plen + 1) ∣ prev.base := by
      rw [← hb1]; exact dvd_mul_left _ _
    have halign : prev.base % 2 ^ (w - addr.plen + 1) = 0 :=
      Nat.mod_eq_zero_of_dvd hdvd
    refine ⟨hplt, by omega, ?_, by omega, halign, ?_, ?_⟩
    · rw [supernet, if_neg hp]
      have : addr.base / 2 ^ (w - addr.plen + 1) * 2 ^ (w - addr.plen + 1)
          = prev.base := hb1
      rw [this]
    · refine ⟨by omega, ?_, ?_⟩
      · have hle : prev.base ≤ addr.base := by
          have := Nat.two_pow_pos (w - addr.plen); omega
        omega
      · have hdd : (2 : Nat) ^ (w - prev.plen) ∣ 2 ^ (w - addr.plen + 1) :=
          pow_dvd_pow 2 (by omega)
        exact Nat.mod_eq_zero_of_dvd (dvd_trans hdd hdvd)
    · rw [supernet, if_neg hp]
      refine ⟨?_, ?_, ?_⟩
      · show addr.plen - 1 ≤ w
        omega
      · show addr.base / 2 ^ (w - addr.plen + 1) * 2 ^ (w - addr.plen + 1)
            < 2 ^ w
        have := Nat.div_mul_le_self addr.base (2 ^ (w - addr.plen + 1))
        omega
      · show addr.base / 2 ^ (w - addr.plen + 1) * 2 ^ (w - addr.plen + 1)
            % 2 ^ (w - (addr.plen - 1)) = 0
        have hexp2 : w - (addr.plen - 1) = w - addr.plen + 1 := by omega
        rw [hexp2, Nat.mul_mod_left]

/-- A successful collapse check is exactly the sibling-pair condition. -/
lemma check_iff_canCombine {prev addr : Net w} (hwf : WF addr) :
    subnetsPair (supernet addr) = (prev, addr) ↔ CanCombine prev addr := by
  constructor
  · intro h
    obtain ⟨h1, h2, -, h4, h5, -, -⟩ := check_eq_elim hwf h
    exact ⟨by omega, h2.symm, by rw [h2]; exact h4, by rw [h2]; exact h5⟩
  · rintro ⟨hc1, hc2, hc3, hc4⟩
    obtain ⟨hw1, hw2, hw3⟩ := hwf
    have hp : addr.plen ≠ 0 := by omega
    have he2 : w - prev.plen = w - addr.plen := by rw [hc2]
    rw [he2] at hc3
    have he3 : w - prev.plen + 1 = w - addr.plen + 1 := by rw [he2]
    rw [he3] at hc4
    have hlt : (2 : Nat) ^ (w - addr.plen) < 2 ^ (w - addr.plen + 1) := by
      rw [pow_succ]
      have := Nat.two_pow_pos (w - addr.plen); omega
    have hmod : addr.base % 2 ^ (w - addr.plen + 1) = 2 ^ (w - addr.plen) := by
      obtain ⟨t, ht⟩ := Nat.dvd_of_mod_eq_zero hc4
      rw [hc3, ht, Nat.mul_add_mod, Nat.mod_eq_of_lt hlt]
    have hbase : addr.base / 2 ^ (w - addr.plen + 1) *
        2 ^ (w - addr.plen + 1) = prev.base := by
      have hdm := Nat.div_add_mod addr.base (2 ^ (w - addr.plen + 1))
      have hcm : addr.base / 2 ^ (w - addr.plen + 1) *
          2 ^ (w - addr.plen + 1) = 2 ^ (w - addr.plen + 1) *
          (addr.base / 2 ^ (w - addr.plen + 1)) := Nat.mul_comm _ _
      have h2s : (2 : Nat) ^ (w - addr.plen + 1) = 2 ^ (w - addr.plen) * 2 :=
        pow_succ 2 (w - addr.plen)
      omega
    have hpp1 : addr.plen - 1 + 1 = addr.plen := by omega
    have hexp : w - (addr.plen - 1) - 1 = w - addr.plen := by omega
    rw [supernet, if_neg hp, subnetsPair, Prod.mk.injEq, hpp1, hexp, hbase]
    constructor
    · have := hc2
      calc (⟨prev.base, addr.plen⟩ : Net w) = ⟨prev.base, prev.plen⟩ := by
            rw [hc2]
        _ = prev := rfl
    · calc (⟨prev.base + 2 ^ (w - addr.plen), addr.plen⟩ : Net w)
          = ⟨addr.base, addr.plen⟩ := by rw [← hc3]
        _ = addr := rfl

/-- Splitting a collapsed supernet into its two halves: when the check
succeeded, the supernet covers exactly what prev and addr cover. -/
lemma covered_supernet_split {prev addr : Net w} (hwf : WF addr)
    (h : subnetsPair (supernet addr) = (prev, addr)) (x : Nat) :
    covered (supernet addr) x ↔ covered prev x ∨ covered addr x := by
  obtain ⟨hp0, hplen, hsup, hbase, -, -, -⟩ := check_eq_elim hwf h
  obtain ⟨hw1, -, -⟩ := hwf
  have hsb : (supernet addr).base = prev.base := by rw [hsup]
  have hsp : (supernet addr).plen = addr.plen - 1 := by rw [hsup]
  have he : w - prev.plen = w - addr.plen := by rw [hplen]
  have hE : (2 : Nat) ^ (w - (addr.plen - 1)) =
      2 ^ (w - addr.plen) + 2 ^ (w - addr.plen) := by
    rw [show w - (addr.plen - 1) = (w - addr.plen) + 1 by omega, pow_succ]
    omega
  unfold covered endOf
  rw [hsb, hsp, he, hE]
  omega

/-! ### The accumulator invariant of the merge loop -/

/-- Relation between consecutive entries of the final merged list: the
earlier entry ends at or before the later entry's base (disjoint,
ascending), and the two are not a collapsible sibling pair. -/
def outRel (a b : Net w) : Prop := endOf a ≤ b.base ∧ ¬ CanCombine a b

/-- The same relation read on the reversed accumulator (head = most
recently appended entry). -/
def accRel (a b : Net w) : Prop := outRel b a

/-- Along a reversed accumulator chain, every deeper entry ends at or
before the head's base. -/
lemma accChain_head_bound :
    ∀ {n : Net w} {rest : List (Net w)}, List.Chain' accRel (n :: rest) →
      ∀ m ∈ rest, endOf m ≤ n.base := by
  intro n rest
  induction rest generalizing n with
  | nil => intro _ m hm; cases hm
  | cons m0 rest2 ih =>
    intro hchain m hm
    have h1 := List.chain'_cons.mp hchain
    rcases List.mem_cons.mp hm with rfl | hm2
    · exact h1.1.1
    · have h2 := ih h1.2 m hm2
      have h3 := base_lt_endOf m0
      have h4 := h1.1.1
      omega

lemma coveredL_cons {n : Net w} {l : List (Net w)} {x : Nat} :
    coveredL (n :: l) x ↔ covered n x ∨ coveredL l x := by
  unfold coveredL
  simp

lemma coveredL_of_mem_iff {l1 l2 : List (Net w)}
    (h : ∀ n, n ∈ l1 ↔ n ∈ l2) (x : Nat) :
    coveredL l1 x ↔ coveredL l2 x := by
  unfold coveredL
  constructor
  · rintro ⟨n, hn, hc⟩; exact ⟨n, (h n).mp hn, hc⟩
  · rintro ⟨n, hn, hc⟩; exact ⟨n, (h n).mpr hn, hc⟩

lemma addMerged_subnet {prev addr : Net w} {rest : List (Net w)}
    (h : subnetOf addr prev = true) :
    addMerged (prev :: rest) addr = prev :: rest := by
  simp [addMerged, h]

lemma addMerged_collapse {prev addr : Net w} {rest : List (Net w)}
    (h1 : subnetOf addr prev = false)
    (h2 : subnetsPair (supernet addr) = (prev, addr)) :
    addMerged (prev :: rest) addr = addMerged rest (supernet addr) := by
  simp [addMerged, h1, h2]

lemma addMerged_append {prev addr : Net w} {rest : List (Net w)}
    (h1 : subnetOf addr prev = false)
    (h2 : ¬ subnetsPair (supernet addr) = (prev, addr)) :
    addMerged (prev :: rest) addr = addr :: prev :: rest := by
  simp [addMerged, h1, h2]

/-- One step of the merge loop preserves the accumulator invariant, keeps
every entry at or before the incoming network in processing order, and
changes the covered address set by exactly the incoming network. -/
lemma addMerged_spec :
    ∀ (acc : List (Net w)) (addr : Net w),
      List.Chain' accRel acc → (∀ n ∈ acc, WF n) → WF addr →
      (∀ n ∈ acc, lexLe n addr) →
      List.Chain' accRel (addMerged acc addr) ∧
        (∀ n ∈ addMerged acc addr, WF n) ∧
        (∀ n ∈ addMerged acc addr, lexLe n addr) ∧
        (∀ x, coveredL (addMerged acc addr) x ↔
          covered addr x ∨ coveredL acc x) := by
  intro acc
  induction acc with
  | nil =>
    intro addr _ _ hwf _
    refine ⟨List.chain'_singleton addr, ?_, ?_, fun x => ?_⟩
    · intro n hn; rw [List.mem_singleton.mp hn]; exact hwf
    · intro n hn; rw [List.mem_singleton.mp hn]; exact lexLe_refl addr
    · rw [show addMerged ([] : List (Net w)) addr = [addr] from rfl,
        coveredL_cons]
  | cons prev rest ih =>
    intro addr hchain hwfacc hwf hlex
    have hwfprev : WF prev := hwfacc prev (List.mem_cons_self _ _)
    cases h1 : subnetOf addr prev with
    | true =>
      rw [addMerged_subnet h1]
      refine ⟨hchain, hwfacc, hlex, fun x => ?_⟩
      constructor
      · exact Or.inr
      · rintro (hx | hx)
        · exact ⟨prev, List.mem_cons_self _ _, covered_of_subnetOf h1 hx⟩
        · exact hx
    | false =>
      by_cases h2 : subnetsPair (supernet addr) = (prev, addr)
      · -- collapse the sibling pair into the supernet and keep looping
        rw [addMerged_collapse h1 h2]
        obtain ⟨hp0, hplen, hsup, hbase, -, -, hwfsup⟩ := check_eq_elim hwf h2
        have hsb : (supernet addr).base = prev.base := by rw [hsup]
        have hchain2 : List.Chain' accRel rest :=
          (List.chain'_cons'.mp hchain).2
        have hwfrest : ∀ n ∈ rest, WF n :=
          fun n hn => hwfacc n (List.mem_cons_of_mem _ hn)
        have hlex2 : ∀ n ∈ rest, lexLe n (supernet addr) := by
          intro n hn
          have hb := accChain_head_bound hchain n hn
          have hlt := base_lt_endOf n
          exact Or.inl (by rw [hsb]; omega)
        obtain ⟨c1, c2, c3, c4⟩ := ih (supernet addr) hchain2 hwfrest
          hwfsup hlex2
        have hsupaddr : lexLe (supernet addr) addr := by
          have := Nat.two_pow_pos (w - addr.plen)
          exact Or.inl (by rw [hsb]; omega)
        refine ⟨c1, c2, fun n hn => lexLe_trans (c3 n hn) hsupaddr,
          fun x => ?_⟩
        rw [c4 x, covered_supernet_split hwf h2 x, coveredL_cons]
        tauto
      · -- neither a subnet nor a sibling pair: append
        rw [addMerged_append h1 h2]
        have hplex : lexLe prev addr := hlex prev (List.mem_cons_self _ _)
        have hpb : prev.base ≤ addr.base := by unfold lexLe at hplex; omega
        have hdisj : endOf prev ≤ addr.base := by
          by_contra hcon
          have hcov1 : covered prev addr.base := ⟨hpb, by omega⟩
          have hcov2 : covered addr addr.base :=
            ⟨Nat.le_refl _, base_lt_endOf addr⟩
          rcases covered_nest hwf hwfprev hcov2 hcov1 with
            ⟨hn1, hn2⟩ | ⟨hn1, hn2⟩
          · -- addr would enclose prev: bases equal, so addr is a subnet
            have hbeq : addr.base = prev.base := by omega
            have hple : prev.plen ≤ addr.plen := by
              unfold lexLe at hplex; omega
            have hpow : (2 : Nat) ^ (w - addr.plen) ≤ 2 ^ (w - prev.plen) :=
              Nat.pow_le_pow_right (by omega) (by omega)
            have : subnetOf addr prev = true := by
              rw [subnetOf_iff]
              unfold endOf at *
              omega
            rw [h1] at this
            cases this
          · have : subnetOf addr prev = true := subnetOf_iff.mpr ⟨hn1, hn2⟩
            rw [h1] at this
            cases this
        have hnosib : ¬ CanCombine prev addr :=
          fun hc => h2 ((check_iff_canCombine hwf).mpr hc)
        refine ⟨List.chain'_cons.mpr ⟨⟨hdisj, hnosib⟩, hchain⟩, ?_, ?_,
          fun x => ?_⟩
        · intro n hn
          rcases List.mem_cons.mp hn with rfl | hn2
          · exact hwf
          · exact hwfacc n hn2
        · intro n hn
          rcases List.mem_cons.mp hn with rfl | hn2
          · exact lexLe_refl n
          · exact hlex n hn2
        · rw [coveredL_cons]

/-- Folding a sorted list of well-formed networks through the merge loop:
the invariant holds of the final accumulator and the covered address set
is exactly that of the processed list. -/
lemma foldl_addMerged_spec :
    ∀ (l acc : List (Net w)),
      List.Chain' accRel acc → (∀ n ∈ acc, WF n) → (∀ n ∈ l, WF n) →
      List.Pairwise lexLe l → (∀ n ∈ acc, ∀ m ∈ l, lexLe n m) →
      List.Chain' accRel (l.foldl addMerged acc) ∧
        (∀ n ∈ l.foldl addMerged acc, WF n) ∧
        (∀ x, coveredL (l.foldl addMerged acc) x ↔
          coveredL l x ∨ coveredL acc x) := by
  intro l
  induction l with
  | nil =>
    intro acc h1 h2 _ _ _
    refine ⟨h1, h2, fun x => ?_⟩
    unfold coveredL
    simp
  | cons a l2 ih =>
    intro acc hchain hwfacc hwfl hpair hcross
    simp only [List.foldl_cons]
    obtain ⟨s1, s2, s3, s4⟩ := addMerged_spec acc a hchain hwfacc
      (hwfl a (List.mem_cons_self _ _))
      (fun n hn => hcross n hn a (List.mem_cons_self _ _))
    have hpair2 := List.pairwise_cons.mp hpair
    obtain ⟨c1, c2, c3⟩ := ih (addMerged acc a) s1 s2
      (fun n hn => hwfl n (List.mem_cons_of_mem _ hn)) hpair2.2
      (fun n hn m hm => lexLe_trans (s3 n hn) (hpair2.1 m hm))
    refine ⟨c1, c2, fun x => ?_⟩
    rw [c3 x, s4 x, coveredL_cons]
    tauto

/-- The emptiness guard of merge is redundant: merge is always the
reversed fold of the sorted input. -/
lemma merge_eq (X : List (Net w)) :
    merge X = ((List.insertionSort netLeP X).foldl addMerged []).reverse := by
  cases hs : List.insertionSort netLeP X with
  | nil => simp [merge, hs]
  | cons a l => simp [merge, hs]

/-- Master lemma about merge: its output satisfies the chain invariant
(disjoint ascending, no adjacent collapsible siblings), consists of
well-formed networks, and covers exactly the addresses of the input. -/
lemma merge_spec (X : List (Net w)) (hwf : ∀ n ∈ X, WF n) :
    List.Chain' outRel (merge X) ∧ (∀ n ∈ merge X, WF n) ∧
      (∀ x, coveredL (merge X) x ↔ coveredL X x) := by
  have hperm := List.perm_insertionSort netLeP X
  have hmemS : ∀ n, n ∈ List.insertionSort netLeP X ↔ n ∈ X :=
    fun n => hperm.mem_iff
  have hwfS : ∀ n ∈ List.insertionSort netLeP X, WF n :=
    fun n hn => hwf n ((hmemS n).mp hn)
  have hsorted := List.sorted_insertionSort netLeP X
  have hpairwise : (List.insertionSort netLeP X).Pairwise lexLe :=
    List.Pairwise.imp_of_mem
      (fun ha hb h => netLe_lexLe (hwfS _ ha) (hwfS _ hb) h) hsorted
  obtain ⟨c1, c2, c3⟩ := foldl_addMerged_spec (List.insertionSort netLeP X) []
    List.chain'_nil (by intro n hn; cases hn) hwfS hpairwise
    (by intro n hn; cases hn)
  rw [merge_eq]
  refine ⟨?_, ?_, fun x => ?_⟩
  · rw [List.chain'_reverse]
    exact c1
  · intro n hn
    exact c2 n (List.mem_reverse.mp hn)
  · rw [coveredL_of_mem_iff (fun n => List.mem_reverse) x, c3 x]
    have h0 : ¬ coveredL ([] : List (Net w)) x := by
      unfold coveredL; simp
    have h1 := coveredL_of_mem_iff hmemS x
    tauto

/-! ### Consequences of the chain invariant -/

/-- The merged list is pairwise ordered: every entry ends at or before any
later entry's base. -/
lemma chain_outRel_pairwise {l : List (Net w)} (h : List.Chain' outRel l) :
    List.Pairwise (fun a b => endOf a ≤ b.base) l := by
  have h2 : List.Chain' (fun a b : Net w => endOf a ≤ b.base) l :=
    h.imp (fun a b hr => hr.1)
  haveI : IsTrans (Net w) (fun a b => endOf a ≤ b.base) :=
    ⟨fun a b c hab hbc => by have := base_lt_endOf b; omega⟩
  exact List.chain'_iff_pairwise.mp h2

/-- Two distinct members of a pairwise-ordered list are ordered one way or
the other. -/
lemma pairwise_rel_or {l : List (Net w)}
    (hp : List.Pairwise (fun a b => endOf a ≤ b.base) l) {m n : Net w}
    (hm : m ∈ l) (hn : n ∈ l) (hne : m ≠ n) :
    endOf m ≤ n.base ∨ endOf n ≤ m.base := by
  have hp2 : List.Pairwise
      (fun a b : Net w => endOf a ≤ b.base ∨ endOf b ≤ a.base) l :=
    hp.imp (fun h => Or.inl h)
  exact List.Pairwise.forall (fun a b h => h.symm) hp2 hm hn hne

/-- In a pairwise-ordered list with no adjacent collapsible siblings, no
two members at all form a collapsible sibling pair. -/
lemma pairwise_not_canCombine :
    ∀ {l : List (Net w)},
      List.Pairwise (fun a b => endOf a ≤ b.base) l →
      List.Chain' (fun a b => ¬ CanCombine a b) l →
      ∀ m ∈ l, ∀ n ∈ l, ¬ CanCombine m n := by
  intro l
  induction l with
  | nil => intro _ _ m hm; cases hm
  | cons y t ih =>
    intro hp hc m hm n hn hcc
    have hpt := List.pairwise_cons.mp hp
    have hb1 := canCombine_base hcc
    have hb2 := base_lt_endOf m
    have hb3 := base_lt_endOf n
    rcases List.mem_cons.mp hm with rfl | hmt
    · rcases List.mem_cons.mp hn with rfl | hnt
      · omega
      · cases t with
        | nil => cases hnt
        | cons n0 t2 =>
          have hrel0 := (List.chain'_cons.mp hc).1
          rcases List.mem_cons.mp hnt with rfl | hnt2
          · exact hrel0 hcc
          · have h1 := hpt.1 n0 (List.mem_cons_self _ _)
            have h2 := (List.pairwise_cons.mp hpt.2).1 n hnt2
            have h3 := base_lt_endOf n0
            omega
    · rcases List.mem_cons.mp hn with rfl | hnt
      · have h1 := hpt.1 m hmt
        omega
      · exact ih hpt.2 (List.chain'_cons'.mp hc).2 m hmt n hnt hcc

/-! ### Idempotence machinery -/

/-- Feeding a list that already satisfies the chain invariant back through
the merge loop appends every element unchanged. -/
lemma foldl_addMerged_of_chain :
    ∀ (l acc : List (Net w)), (∀ n ∈ l, WF n) →
      List.Chain' outRel (acc.reverse ++ l) →
      l.foldl addMerged acc = l.reverse ++ acc := by
  intro l
  induction l with
  | nil => intro acc _ _; simp
  | cons a l2 ih =>
    intro acc hwf hchain
    have hstep : addMerged acc a = a :: acc := by
      cases acc with
      | nil => rfl
      | cons n acc2 =>
        have hadj : outRel n a := by
          obtain ⟨-, -, h3⟩ := List.chain'_append.mp hchain
          refine h3 n ?_ a rfl
          rw [List.getLast?_reverse]
          rfl
        have h1 : subnetOf a n = false := by
          cases hsub : subnetOf a n with
          | false => rfl
          | true =>
            exfalso
            obtain ⟨-, hs2⟩ := subnetOf_iff.mp hsub
            have h4 := hadj.1
            have h5 := base_lt_endOf a
            omega
        have h2 : ¬ subnetsPair (supernet a) = (n, a) := fun hch =>
          hadj.2 ((check_iff_canCombine
            (hwf a (List.mem_cons_self _ _))).mp hch)
        exact addMerged_append h1 h2
    rw [List.foldl_cons, hstep]
    have hch2 : List.Chain' outRel ((a :: acc).reverse ++ l2) := by
      rw [List.reverse_cons, List.append_assoc]
      exact hchain
    rw [ih (a :: acc) (fun n hn => hwf n (List.mem_cons_of_mem _ hn)) hch2]
    simp

/-- A list satisfying the chain invariant with well-formed entries is a
fixed point of merge. -/
lemma merge_of_chain {l : List (Net w)} (hchain : List.Chain' outRel l)
    (hwf : ∀ n ∈ l, WF n) : merge l = l := by
  have hpnet : l.Pairwise (fun a b => netLe a b = true) :=
    (chain_outRel_pairwise hchain).imp
      (fun h => netLe_of_base_lt (lt_of_lt_of_le (base_lt_endOf _) h))
  have hsort : List.insertionSort netLeP l = l :=
    List.Sorted.insertionSort_eq hpnet
  rw [merge_eq, hsort,
    foldl_addMerged_of_chain l [] hwf (by simpa using hchain)]
  simp

/-! ### Claims C1-C4 about merge

The hypothesis 0 < w restricts to genuine address families (IPv4 has
w = 32, IPv6 has w = 128); for w = 0 Python's subnets() would raise
instead of returning the two halves.  The hypothesis that every input is
well-formed holds of every network object the Python ipaddress library
constructs. -/

/-- Claim C1: for every finite set X of networks of one address family,
the set of individual addresses covered by the union of merge(X)'s output
equals the set of addresses covered by the union of X: merge neither drops
nor adds any address. -/
theorem C1_merge_union_preservation (w : Nat) (hw : 0 < w)
    (X : List (Net w)) (hwf : ∀ n ∈ X, WF n) (a : Nat) :
    coveredL (merge X) a ↔ coveredL X a :=
  (merge_spec X hwf).2.2 a

theorem C1_merge_union_preservation_witness :
    ((0 : Nat) < 32 ∧
      (∀ n ∈ ([⟨3221225984, 25⟩, ⟨3221226112, 25⟩] : List (Net 32)), WF n)) ∧
    (coveredL (merge ([⟨3221225984, 25⟩, ⟨3221226112, 25⟩] :
        List (Net 32))) 3221226130 ↔
      coveredL ([⟨3221225984, 25⟩, ⟨3221226112, 25⟩] : List (Net 32))
        3221226130) :=
  ⟨⟨by decide, by decide⟩,
    C1_merge_union_preservation 32 (by decide)
      [⟨3221225984, 25⟩, ⟨3221226112, 25⟩] (by decide) 3221226130⟩

/-- Claim C2: for every finite set X of same-family networks, no two
networks in merge(X)'s output are the two exact halves of a common valid
parent one prefix bit wider: the output admits no further sibling
collapse. -/
theorem C2_merge_minimality (w : Nat) (hw : 0 < w)
    (X : List (Net w)) (hwf : ∀ n ∈ X, WF n) :
    ∀ m ∈ merge X, ∀ n ∈ merge X, ¬ CanCombine m n := by
  obtain ⟨hc, -, -⟩ := merge_spec X hwf
  exact pairwise_not_canCombine (chain_outRel_pairwise hc)
    (hc.imp (fun a b hr => hr.2))

theorem C2_merge_minimality_witness :
    ((0 : Nat) < 32 ∧
      (∀ n ∈ ([⟨16777216, 24⟩, ⟨50331648, 24⟩] : List (Net 32)), WF n)) ∧
    (∀ m ∈ merge ([⟨16777216, 24⟩, ⟨50331648, 24⟩] : List (Net 32)),
      ∀ n ∈ merge ([⟨16777216, 24⟩, ⟨50331648, 24⟩] : List (Net 32)),
        ¬ CanCombine m n) :=
  ⟨⟨by decide, by decide⟩,
    C2_merge_minimality 32 (by decide) [⟨16777216, 24⟩, ⟨50331648, 24⟩]
      (by decide)⟩

/-- Claim C3: after every step of the merge loop (that is, after
processing every prefix of the sorted input) the accumulator, read in
Python order, contains no two networks where one contains the other and
no two adjacent entries that are a collapsible sibling pair (whose common
parent is therefore absent); consequently the final output of merge is
strictly ascending by base address and pairwise non-overlapping. -/
theorem C3_merge_invariant (w : Nat) (hw : 0 < w)
    (X : List (Net w)) (hwf : ∀ n ∈ X, WF n) :
    (∀ p q : List (Net w), List.insertionSort netLeP X = p ++ q →
      (∀ m ∈ (p.foldl addMerged []).reverse,
        ∀ n ∈ (p.foldl addMerged []).reverse, m ≠ n →
          ¬ (∀ x, covered m x → covered n x)) ∧
      List.Chain' (fun m n => ¬ CanCombine m n)
        ((p.foldl addMerged []).reverse)) ∧
    List.Pairwise (fun m n => m.base < n.base) (merge X) ∧
    (∀ m ∈ merge X, ∀ n ∈ merge X, m ≠ n →
      ∀ x, ¬ (covered m x ∧ covered n x)) := by
  have hperm := List.perm_insertionSort netLeP X
  have hwfS : ∀ n ∈ List.insertionSort netLeP X, WF n :=
    fun n hn => hwf n (hperm.mem_iff.mp hn)
  have hsorted := List.sorted_insertionSort netLeP X
  have hpairwise : (List.insertionSort netLeP X).Pairwise lexLe :=
    List.Pairwise.imp_of_mem
      (fun ha hb h => netLe_lexLe (hwfS _ ha) (hwfS _ hb) h) hsorted
  refine ⟨?_, ?_⟩
  · intro p q heq
    have hwfp : ∀ n ∈ p, WF n := by
      intro n hn
      exact hwfS n (by rw [heq]; exact List.mem_append_left q hn)
    have hpp : p.Pairwise lexLe := by
      rw [heq] at hpairwise
      exact (List.pairwise_append.mp hpairwise).1
    obtain ⟨c1, -, -⟩ := foldl_addMerged_spec p [] List.chain'_nil
      (by intro n hn; cases hn) hwfp hpp (by intro n hn; cases hn)
    have hout : List.Chain' outRel ((p.foldl addMerged []).reverse) := by
      rw [List.chain'_reverse]
      exact c1
    have hpw := chain_outRel_pairwise hout
    refine ⟨?_, hout.imp (fun a b hr => hr.2)⟩
    intro m hm n hn hne hsub
    have hcm : covered m m.base := ⟨Nat.le_refl _, base_lt_endOf m⟩
    obtain ⟨hcn1, hcn2⟩ := hsub m.base hcm
    have h5 := base_lt_endOf m
    rcases pairwise_rel_or hpw hm hn hne with h | h <;> omega
  · obtain ⟨hc, -, -⟩ := merge_spec X hwf
    have hpw := chain_outRel_pairwise hc
    refine ⟨hpw.imp (fun h => lt_of_lt_of_le (base_lt_endOf _) h), ?_⟩
    intro m hm n hn hne x hx
    obtain ⟨⟨hcm1, hcm2⟩, ⟨hcn1, hcn2⟩⟩ := hx
    rcases pairwise_rel_or hpw hm hn hne with h | h <;> omega

theorem C3_merge_invariant_witness :
    ((0 : Nat) < 32 ∧
      (∀ n ∈ ([⟨3221225984, 25⟩, ⟨167772160, 8⟩] : List (Net 32)), WF n)) ∧
    List.Pairwise (fun m n => m.base < n.base)
      (merge ([⟨3221225984, 25⟩, ⟨167772160, 8⟩] : List (Net 32))) :=
  ⟨⟨by decide, by decide⟩,
    (C3_merge_invariant 32 (by decide) [⟨3221225984, 25⟩, ⟨167772160, 8⟩]
      (by decide)).2.1⟩

/-- Claim C4: merging is idempotent: applying merge to the networks that
merge(X) produced yields the same sequence as merge(X). -/
theorem C4_merge_idempotent (w : Nat) (hw : 0 < w)
    (X : List (Net w)) (hwf : ∀ n ∈ X, WF n) :
    merge (merge X) = merge X := by
  obtain ⟨hc, hwfo, -⟩ := merge_spec X hwf
  exact merge_of_chain hc hwfo

theorem C4_merge_idempotent_witness :
    ((0 : Nat) < 32 ∧
      (∀ n ∈ ([⟨3221225984, 25⟩, ⟨3221226112, 25⟩, ⟨16777216, 24⟩] :
        List (Net 32)), WF n)) ∧
    merge (merge ([⟨3221225984, 25⟩, ⟨3221226112, 25⟩, ⟨16777216, 24⟩] :
        List (Net 32))) =
      merge ([⟨3221225984, 25⟩, ⟨3221226112, 25⟩, ⟨16777216, 24⟩] :
        List (Net 32)) :=
  ⟨⟨by decide, by decide⟩,
    C4_merge_idempotent 32 (by decide)
      [⟨3221225984, 25⟩, ⟨3221226112, 25⟩, ⟨16777216, 24⟩] (by decide)⟩

/-! ### IPv4 address classification and add_addr (genalias.py lines 79-111)

add_addr screens each parsed network with the ipaddress properties
is_multicast, is_private, is_unspecified, is_reserved, is_loopback and
is_link_local, in that order, and inserts it into the working set only
when none of them holds.  For a network object each property holds when it
holds of both the network address and the broadcast address; for an IPv4
address the properties are membership in the fixed CPython constant
networks embedded below (iana-ipv4-special-registry based list of
_private_networks, 224.0.0.0/4 multicast, 240.0.0.0/4 reserved,
127.0.0.0/8 loopback, 169.254.0.0/16 link-local, and 0.0.0.0 as the
unspecified address). -/

/-- An IPv4 network: address family width 32. -/
abbrev NetV4 := Net 32

/-- Python `address in network` for an IPv4 address as an integer. -/
def inNet (a : Nat) (n : NetV4) : Bool :=
  decide (n.base ≤ a) && decide (a ≤ broadcast n)

/-- The CPython IPv4 _multicast_network, 224.0.0.0/4. -/
def multicastNet : NetV4 := ⟨3758096384, 4⟩

/-- The CPython IPv4 _reserved_network, 240.0.0.0/4. -/
def reservedNet : NetV4 := ⟨4026531840, 4⟩

/-- The CPython IPv4 _loopback_network, 127.0.0.0/8. -/
def loopbackNet : NetV4 := ⟨2130706432, 8⟩

/-- The CPython IPv4 _linklocal_network, 169.254.0.0/16. -/
def linkLocalNet : NetV4 := ⟨2851995648, 16⟩

/-- The CPython IPv4 _private_networks list: 0.0.0.0/8, 10.0.0.0/8,
127.0.0.0/8, 169.254.0.0/16, 172.16.0.0/12, 192.0.0.0/29, 192.0.0.170/31,
192.0.2.0/24, 192.168.0.0/16, 198.18.0.0/15, 198.51.100.0/24,
203.0.113.0/24, 240.0.0.0/4, 255.255.255.255/32. -/
def privateNets : List NetV4 :=
  [⟨0, 8⟩, ⟨167772160, 8⟩, ⟨2130706432, 8⟩, ⟨2851995648, 16⟩,
   ⟨2886729728, 12⟩, ⟨3221225472, 29⟩, ⟨3221225642, 31⟩, ⟨3221225984, 24⟩,
   ⟨3232235520, 16⟩, ⟨3323068416, 15⟩, ⟨3325256704, 24⟩, ⟨3405803776, 24⟩,
   ⟨4026531840, 4⟩, ⟨4294967295, 32⟩]

/-- IPv4Address.is_multicast. -/
def addrIsMulticast (a : Nat) : Bool := inNet a multicastNet

/-- IPv4Address.is_private. -/
def addrIsPrivate (a : Nat) : Bool := privateNets.any (fun n => inNet a n)

/-- IPv4Address.is_unspecified (equal to 0.0.0.0). -/
def addrIsUnspecified (a : Nat) : Bool := decide (a = 0)

/-- IPv4Address.is_reserved. -/
def addrIsReserved (a : Nat) : Bool := inNet a reservedNet

/-- IPv4Address.is_loopback. -/
def addrIsLoopback (a : Nat) : Bool := inNet a loopbackNet

/-- IPv4Address.is_link_local. -/
def addrIsLinkLocal (a : Nat) : Bool := inNet a linkLocalNet

/-- A _BaseNetwork classification property holds of a network when the
address property holds of both the network address and the broadcast
address. -/
def netHas (p : Nat → Bool) (n : NetV4) : Bool := p n.base && p (broadcast n)

/-- The rejection reason add_addr logs; one distinct constructor per
exclusion predicate (priv stands for the "private" reason). -/
inductive RejectReason where
  | multicast
  | priv
  | unspecified
  | reserved
  | loopback
  | linkLocal
deriving DecidableEq, Repr

/-- The screening chain of add_addr (genalias.py lines 87-109): the first
property that holds rejects the network with its reason; a network passing
all six is accepted (none). -/
def classify (n : NetV4) : Option RejectReason :=
  if netHas addrIsMulticast n then some .multicast
  else if netHas addrIsPrivate n then some .priv
  else if netHas addrIsUnspecified n then some .unspecified
  else if netHas addrIsReserved n then some .reserved
  else if netHas addrIsLoopback n then some .loopback
  else if netHas addrIsLinkLocal n then some .linkLocal
  else none

/-- add_addr's effect on the working address set (kept as a list in
insertion order): a rejected network leaves the set unchanged; an accepted
network is inserted with set semantics (re-inserting an element that is
already present is a no-op). -/
def addAddr (acc : List NetV4) (n : NetV4) : List NetV4 :=
  match classify n with
  | some _ => acc
  | none => if n ∈ acc then acc else acc ++ [n]

/-- The IPv4 half of the pipeline of run (genalias.py lines 113-115 and
159): screen every parsed network through add_addr, then merge the
accepted set. -/
def pipelineV4 (input : List NetV4) : List NetV4 :=
  merge (input.foldl addAddr [])

/-- Modelled from the spec: the screening order as an explicit ordered
list of (reason, predicate) pairs, rejection being decided by the first
matching predicate. -/
def screenOrder : List (RejectReason × (NetV4 → Bool)) :=
  [(.multicast, netHas addrIsMulticast), (.priv, netHas addrIsPrivate),
   (.unspecified, netHas addrIsUnspecified),
   (.reserved, netHas addrIsReserved), (.loopback, netHas addrIsLoopback),
   (.linkLocal, netHas addrIsLinkLocal)]

/-- Modelled from the spec: reject with the reason of the first matching
predicate in the fixed screening order, never consulting later ones. -/
def specClassify (n : NetV4) : Option RejectReason :=
  (screenOrder.find? (fun pr => pr.2 n)).map Prod.fst

lemma addAddr_rejected {acc : List NetV4} {n : NetV4} {r : RejectReason}
    (h : classify n = some r) : addAddr acc n = acc := by
  unfold addAddr
  rw [h]

lemma addAddr_dup {acc : List NetV4} {n : NetV4} (h : classify n = none)
    (h2 : n ∈ acc) : addAddr acc n = acc := by
  unfold addAddr
  rw [h, if_pos h2]

lemma addAddr_new {acc : List NetV4} {n : NetV4} (h : classify n = none)
    (h2 : n ∉ acc) : addAddr acc n = acc ++ [n] := by
  unfold addAddr
  rw [h, if_neg h2]

/-- Every member of the accumulated working set is an input network that
passed all six exclusion predicates. -/
lemma mem_foldl_addAddr :
    ∀ (l acc : List NetV4) (m : NetV4), m ∈ l.foldl addAddr acc →
      m ∈ acc ∨ (m ∈ l ∧ classify m = none) := by
  intro l
  induction l with
  | nil => intro acc m hm; exact Or.inl hm
  | cons a l2 ih =>
    intro acc m hm
    rw [List.foldl_cons] at hm
    rcases ih (addAddr acc a) m hm with hmem | hrest
    · cases hcl : classify a with
      | some r => rw [addAddr_rejected hcl] at hmem; exact Or.inl hmem
      | none =>
        by_cases hin : a ∈ acc
        · rw [addAddr_dup hcl hin] at hmem
          exact Or.inl hmem
        · rw [addAddr_new hcl hin] at hmem
          rcases List.mem_append.mp hmem with h | h
          · exact Or.inl h
          · have hma : m = a := by simpa using h
            exact Or.inr ⟨by rw [hma]; exact List.mem_cons_self _ _,
              by rw [hma]; exact hcl⟩
    · exact Or.inr ⟨List.mem_cons_of_mem _ hrest.1, hrest.2⟩

/-- The if-chain of add_addr agrees with first-match screening over the
ordered predicate list. -/
lemma classify_eq_specClassify (n : NetV4) : classify n = specClassify n := by
  unfold classify specClassify screenOrder
  cases h1 : netHas addrIsMulticast n <;>
    cases h2 : netHas addrIsPrivate n <;>
      cases h3 : netHas addrIsUnspecified n <;>
        cases h4 : netHas addrIsReserved n <;>
          cases h5 : netHas addrIsLoopback n <;>
            cases h6 : netHas addrIsLinkLocal n <;>
              simp [List.find?, h1, h2, h3, h4, h5, h6]

/-- A network is accepted exactly when all six exclusion predicates are
false. -/
lemma classify_eq_none_iff (n : NetV4) :
    classify n = none ↔
      netHas addrIsMulticast n = false ∧ netHas addrIsPrivate n = false ∧
      netHas addrIsUnspecified n = false ∧
      netHas addrIsReserved n = false ∧ netHas addrIsLoopback n = false ∧
      netHas addrIsLinkLocal n = false := by
  unfold classify
  cases h1 : netHas addrIsMulticast n <;>
    cases h2 : netHas addrIsPrivate n <;>
      cases h3 : netHas addrIsUnspecified n <;>
        cases h4 : netHas addrIsReserved n <;>
          cases h5 : netHas addrIsLoopback n <;>
            cases h6 : netHas addrIsLinkLocal n <;>
              simp

/-! ### Claim C5 (corrected) -/

/-- Claim C5, counterexample to the claim as stated: on the input subnets
10.0.0.0/8, 192.0.2.0/25 and 192.0.2.128/25 the pipeline does NOT produce
192.0.2.0/24.  CPython's iana-based private list contains the TEST-NET-1
block 192.0.2.0/24, so both /25 halves are rejected as private too and
the output is empty. -/
theorem C5_scenario_counterexample :
    classify ⟨3221225984, 25⟩ = some RejectReason.priv ∧
    pipelineV4 [⟨167772160, 8⟩, ⟨3221225984, 25⟩, ⟨3221226112, 25⟩] = [] ∧
    pipelineV4 [⟨167772160, 8⟩, ⟨3221225984, 25⟩, ⟨3221226112, 25⟩] ≠
      [⟨3221225984, 24⟩] := by
  decide

/-- Claim C5, amended: the pipeline on subnets 10.0.0.0/8 (= base
167772160), 192.0.2.0/25 (= base 3221225984) and 192.0.2.128/25 (= base
3221226112) rejects all three as private, 10.0.0.0/8 because of the
10.0.0.0/8 entry and the two /25 halves because CPython treats TEST-NET-1
192.0.2.0/24 as private, and therefore produces empty output. -/
theorem C5_pipeline_scenario :
    classify ⟨167772160, 8⟩ = some RejectReason.priv ∧
    classify ⟨3221225984, 25⟩ = some RejectReason.priv ∧
    classify ⟨3221226112, 25⟩ = some RejectReason.priv ∧
    pipelineV4 [⟨167772160, 8⟩, ⟨3221225984, 25⟩, ⟨3221226112, 25⟩]
      = [] := by
  decide

/-! ### Claim C7 -/

/-- Claim C7: every successfully parsed network is screened against the
exclusion predicates in the fixed order multicast, private, unspecified,
reserved, loopback, link-local; the first matching predicate determines
the distinct rejection reason and later ones are not consulted (the
if-chain equals first-match search over the ordered predicate list); a
rejected network leaves the shared address set unchanged; a network
matching none of them is inserted into the set, duplicate insertion being
a no-op. -/
theorem C7_addAddr_screening :
    (∀ n : NetV4, classify n = specClassify n) ∧
    (∀ (acc : List NetV4) (n : NetV4) (r : RejectReason),
      classify n = some r → addAddr acc n = acc) ∧
    (∀ (acc : List NetV4) (n : NetV4),
      classify n = none → n ∉ acc → addAddr acc n = acc ++ [n]) ∧
    (∀ (acc : List NetV4) (n : NetV4),
      classify n = none → n ∈ acc → addAddr acc n = acc) :=
  ⟨classify_eq_specClassify,
    fun _ _ _ h => addAddr_rejected h,
    fun _ _ h h2 => addAddr_new h h2,
    fun _ _ h h2 => addAddr_dup h h2⟩

theorem C7_addAddr_screening_witness :
    (classify ⟨167772160, 8⟩ = specClassify ⟨167772160, 8⟩) ∧
    (classify ⟨167772160, 8⟩ = some RejectReason.priv ∧
      addAddr [] ⟨167772160, 8⟩ = []) ∧
    (classify ⟨16777216, 24⟩ = none ∧
      addAddr [] ⟨16777216, 24⟩ = [⟨16777216, 24⟩]) ∧
    (addAddr [⟨16777216, 24⟩] ⟨16777216, 24⟩ = [⟨16777216, 24⟩]) :=
  ⟨C7_addAddr_screening.1 ⟨167772160, 8⟩,
    ⟨by decide, C7_addAddr_screening.2.1 [] ⟨167772160, 8⟩
      RejectReason.priv (by decide)⟩,
    ⟨by decide, C7_addAddr_screening.2.2.1 [] ⟨16777216, 24⟩ (by decide)
      (by decide)⟩,
    C7_addAddr_screening.2.2.2 [⟨16777216, 24⟩] ⟨16777216, 24⟩ (by decide)
      (by decide)⟩

/-! ### Claim C6 (corrected) -/

lemma base_le_broadcast (n : Net w) : n.base ≤ broadcast n := by
  have := Nat.two_pow_pos (w - n.plen)
  unfold broadcast
  omega

lemma covered_iff_broadcast {n : Net w} {a : Nat} :
    covered n a ↔ n.base ≤ a ∧ a ≤ broadcast n := by
  have := Nat.two_pow_pos (w - n.plen)
  unfold covered endOf broadcast
  omega

lemma inNet_iff {a : Nat} {n : NetV4} :
    inNet a n = true ↔ n.base ≤ a ∧ a ≤ broadcast n := by
  simp [inNet]

/-- The constant networks whose member addresses each exclusion category
consists of. -/
def catBlocks : RejectReason → List NetV4
  | .multicast => [multicastNet]
  | .priv => privateNets
  | .unspecified => [⟨0, 32⟩]
  | .reserved => [reservedNet]
  | .loopback => [loopbackNet]
  | .linkLocal => [linkLocalNet]

/-- An address belongs to an exclusion category when one of the category's
constant networks contains it. -/
def addrInCat (c : RejectReason) (a : Nat) : Bool :=
  (catBlocks c).any (fun n => inNet a n)

/-- All the constant networks of all six categories. -/
def allCatBlocks : List NetV4 :=
  [multicastNet] ++ privateNets ++ [⟨0, 32⟩] ++ [reservedNet] ++
    [loopbackNet] ++ [linkLocalNet]

lemma catBlocks_sub (c : RejectReason) (B : NetV4)
    (h : B ∈ catBlocks c) : B ∈ allCatBlocks := by
  cases c <;> simp [catBlocks, allCatBlocks] at h ⊢ <;> tauto

/-- A network does not straddle any category block: against each constant
network it is either wholly contained or wholly disjoint. -/
def NoStraddle (n : NetV4) : Prop :=
  ∀ B ∈ allCatBlocks,
    (B.base ≤ n.base ∧ broadcast n ≤ broadcast B) ∨
      (broadcast n < B.base ∨ broadcast B < n.base)

instance (n : NetV4) : Decidable (NoStraddle n) := by
  unfold NoStraddle
  infer_instance

lemma addrInCat_multicast (a : Nat) :
    addrInCat RejectReason.multicast a = addrIsMulticast a := by
  simp [addrInCat, catBlocks, addrIsMulticast]

lemma addrInCat_priv (a : Nat) :
    addrInCat RejectReason.priv a = addrIsPrivate a := rfl

lemma addrInCat_unspecified (a : Nat) :
    addrInCat RejectReason.unspecified a = addrIsUnspecified a := by
  have hb : broadcast (⟨0, 32⟩ : NetV4) = 0 := by decide
  simp [addrInCat, catBlocks, inNet, addrIsUnspecified, hb, Nat.le_zero]

lemma addrInCat_reserved (a : Nat) :
    addrInCat RejectReason.reserved a = addrIsReserved a := by
  simp [addrInCat, catBlocks, addrIsReserved]

lemma addrInCat_loopback (a : Nat) :
    addrInCat RejectReason.loopback a = addrIsLoopback a := by
  simp [addrInCat, catBlocks, addrIsLoopback]

lemma addrInCat_linkLocal (a : Nat) :
    addrInCat RejectReason.linkLocal a = addrIsLinkLocal a := by
  simp [addrInCat, catBlocks, addrIsLinkLocal]

/-- An accepted network has no category that contains both its endpoints. -/
lemma classify_none_not_cat {n : NetV4} (h : classify n = none)
    (c : RejectReason) :
    ¬ (addrInCat c n.base = true ∧ addrInCat c (broadcast n) = true) := by
  obtain ⟨h1, h2, h3, h4, h5, h6⟩ := (classify_eq_none_iff n).mp h
  rintro ⟨hc1, hc2⟩
  cases c
  case multicast =>
    rw [addrInCat_multicast] at hc1 hc2
    simp [netHas, hc1, hc2] at h1
  case priv =>
    rw [addrInCat_priv] at hc1 hc2
    simp [netHas, hc1, hc2] at h2
  case unspecified =>
    rw [addrInCat_unspecified] at hc1 hc2
    simp [netHas, hc1, hc2] at h3
  case reserved =>
    rw [addrInCat_reserved] at hc1 hc2
    simp [netHas, hc1, hc2] at h4
  case loopback =>
    rw [addrInCat_loopback] at hc1 hc2
    simp [netHas, hc1, hc2] at h5
  case linkLocal =>
    rw [addrInCat_linkLocal] at hc1 hc2
    simp [netHas, hc1, hc2] at h6

/-- Claim C6, counterexample to the claim as stated: the input network
128.0.0.0/1 (base 2147483648) passes every exclusion predicate, because
neither of its endpoints is special, and is emitted unchanged; yet it
contains the multicast address 224.0.0.1 (= 3758096385).  So an excluded
address can appear in the output via containment. -/
theorem C6_exclusion_counterexample :
    addrInCat RejectReason.multicast 3758096385 = true ∧
    pipelineV4 [⟨2147483648, 1⟩] = [⟨2147483648, 1⟩] ∧
    coveredL (pipelineV4 [⟨2147483648, 1⟩]) 3758096385 := by
  decide

/-- Claim C6, amended: for each exclusion category, no address of that
category appears in the program's output, directly or via containment,
PROVIDED no input network straddles a category block (each input is wholly
inside or wholly outside every constant category network).  Without that
restriction an accepted network straddling a category boundary can carry
excluded addresses into the output, as the counterexample shows. -/
theorem C6_exclusion_correctness (input : List NetV4)
    (hwf : ∀ n ∈ input, WF n) (hns : ∀ n ∈ input, NoStraddle n) :
    ∀ (c : RejectReason) (a : Nat), addrInCat c a = true →
      ¬ coveredL (pipelineV4 input) a := by
  intro c a hcat hcov
  have hacc : ∀ m ∈ input.foldl addAddr [],
      m ∈ input ∧ classify m = none := by
    intro m hm
    rcases mem_foldl_addAddr input [] m hm with h | h
    · cases h
    · exact h
  have hwfacc : ∀ m ∈ input.foldl addAddr [], WF m :=
    fun m hm => hwf m (hacc m hm).1
  unfold pipelineV4 at hcov
  rw [(merge_spec _ hwfacc).2.2 a] at hcov
  obtain ⟨m, hm, hcm⟩ := hcov
  obtain ⟨hmin, hmnone⟩ := hacc m hm
  unfold addrInCat at hcat
  obtain ⟨B, hB, haB⟩ := List.any_eq_true.mp hcat
  have hBall : B ∈ allCatBlocks := catBlocks_sub c B hB
  obtain ⟨hinB1, hinB2⟩ := inNet_iff.mp haB
  obtain ⟨hcovm1, hcovm2⟩ := covered_iff_broadcast.mp hcm
  rcases hns m hmin B hBall with ⟨hs1, hs2⟩ | hdisj
  · apply classify_none_not_cat hmnone c
    constructor
    · unfold addrInCat
      apply List.any_eq_true.mpr
      exact ⟨B, hB, inNet_iff.mpr
        ⟨hs1, le_trans (base_le_broadcast m) hs2⟩⟩
    · unfold addrInCat
      apply List.any_eq_true.mpr
      exact ⟨B, hB, inNet_iff.mpr
        ⟨le_trans hs1 (base_le_broadcast m), hs2⟩⟩
  · omega

theorem C6_exclusion_correctness_witness :
    ((∀ n ∈ ([⟨16777216, 24⟩] : List NetV4), WF n) ∧
      (∀ n ∈ ([⟨16777216, 24⟩] : List NetV4), NoStraddle n) ∧
      addrInCat RejectReason.multicast 3758096385 = true) ∧
    ¬ coveredL (pipelineV4 [⟨16777216, 24⟩]) 3758096385 :=
  ⟨⟨by decide, by decide, by decide⟩,
    C6_exclusion_correctness [⟨16777216, 24⟩] (by decide) (by decide)
      RejectReason.multicast 3758096385 (by decide)⟩

/-! ### resolve_dns (genalias.py lines 46-62) -/

/-- Outcome of one getaddrinfo call: either the complete list of resolved
address strings (sockaddr[0] of each returned tuple) or an exception
carrying its first argument, an error code. -/
inductive DnsAttempt where
  | ok (addrs : List String)
  | err (code : Int)
deriving DecidableEq, Repr

/-- socket.EAI_AGAIN, the transient "try again" resolver error; the code
compares the caught exception's first argument against it (Linux value
-3). -/
def eaiAgain : Int := -3

/-- resolve_dns with the system resolver abstracted as the stream of
outcomes of the successive getaddrinfo attempts.  The loop accumulates
addresses into a set (a deduplicated list here), logs every error, sleeps
0.5 seconds and retries on EAI_AGAIN, and returns on anything else.  The
result is none when the attempt stream runs out while the loop is still
retrying (the loop retries forever while the resolver keeps saying "try
again"); otherwise it is the returned address set, the total milliseconds
slept (500 per retry), and the codes of the errors logged.  A failing
attempt contributes no addresses, so a final non-transient error returns
the still-empty set instead of raising. -/
def resolveDns : List DnsAttempt → Option (List String × Nat × List Int)
  | [] => none
  | .ok addrs :: _ => some (addrs.dedup, 0, [])
  | .err c :: rest =>
    if c = eaiAgain then
      match resolveDns rest with
      | none => none
      | some (r, ms, logs) => some (r, ms + 500, c :: logs)
    else some ([], 0, [c])

/-- Claim C8: resolve_dns retries the same lookup after a fixed 500 ms
delay, indefinitely, whenever the resolver signals EAI_AGAIN (it runs
forever exactly when every attempt is transient), and returns only at the
first non-transient outcome: on success the resolved address set, and on
a non-transient failure a logged error and the empty address set instead
of a propagating exception, so a failing domain never aborts the run. -/
theorem C8_resolve_dns_retry (attempts : List DnsAttempt) :
    (resolveDns attempts = none ↔
      ∀ x ∈ attempts, x = DnsAttempt.err eaiAgain) ∧
    (∀ res ms logs, resolveDns attempts = some (res, ms, logs) →
      ∃ k rest2,
        attempts = List.replicate k (DnsAttempt.err eaiAgain) ++ rest2 ∧
        ms = 500 * k ∧
        ((∃ l tail2, rest2 = DnsAttempt.ok l :: tail2 ∧ res = l.dedup ∧
            logs = List.replicate k eaiAgain) ∨
         (∃ c tail2, rest2 = DnsAttempt.err c :: tail2 ∧ c ≠ eaiAgain ∧
            res = [] ∧ logs = List.replicate k eaiAgain ++ [c]))) := by
  induction attempts with
  | nil =>
    constructor
    · constructor
      · intro _ x hx; cases hx
      · intro _; rfl
    · intro res ms logs h; cases h
  | cons a rest ih =>
    cases a with
    | ok addrs =>
      constructor
      · constructor
        · intro h; cases h
        · intro h
          have := h (DnsAttempt.ok addrs) (List.mem_cons_self _ _)
          cases this
      · intro res ms logs h
        rw [show resolveDns (DnsAttempt.ok addrs :: rest) =
          some (addrs.dedup, 0, []) from rfl] at h
        obtain ⟨h1, h2, h3⟩ : addrs.dedup = res ∧ 0 = ms ∧ [] = logs := by
          injection h with h
          injection h with h1 h
          injection h with h2 h3
          exact ⟨h1, h2, h3⟩
        refine ⟨0, DnsAttempt.ok addrs :: rest, by simp, by omega, ?_⟩
        exact Or.inl ⟨addrs, rest, rfl, h1.symm, by rw [← h3]; rfl⟩
    | err c =>
      by_cases hc : c = eaiAgain
      · subst hc
        have hred : resolveDns (DnsAttempt.err eaiAgain :: rest) =
            match resolveDns rest with
            | none => none
            | some (r, ms, logs) => some (r, ms + 500, eaiAgain :: logs) := by
          simp [resolveDns]
        constructor
        · constructor
          · intro h
            intro x hx
            rcases List.mem_cons.mp hx with rfl | hx2
            · rfl
            · rw [hred] at h
              cases hrec : resolveDns rest with
              | none => exact (ih.1.mp hrec) x hx2
              | some v =>
                rw [hrec] at h
                obtain ⟨r, ms, logs⟩ := v
                cases h
          · intro h
            rw [hred]
            have hrest : resolveDns rest = none :=
              ih.1.mpr (fun x hx => h x (List.mem_cons_of_mem _ hx))
            rw [hrest]
        · intro res ms logs h
          rw [hred] at h
          cases hrec : resolveDns rest with
          | none => rw [hrec] at h; cases h
          | some v =>
            obtain ⟨r, ms0, lg⟩ := v
            rw [hrec] at h
            obtain ⟨h1, h2, h3⟩ : r = res ∧ ms0 + 500 = ms ∧
                eaiAgain :: lg = logs := by
              injection h with h
              injection h with h1 h
              injection h with h2 h3
              exact ⟨h1, h2, h3⟩
            obtain ⟨k, rest2, hk1, hk2, hk3⟩ := ih.2 r ms0 lg hrec
            refine ⟨k + 1, rest2, ?_, by omega, ?_⟩
            · rw [List.replicate_succ, List.cons_append, ← hk1]
            · rcases hk3 with ⟨l, tail2, ha, hb, hcc⟩ | ⟨c2, tail2, ha, hb, hcc, hd⟩
              · exact Or.inl ⟨l, tail2, ha, by rw [← h1, hb], by
                  rw [← h3, hcc, List.replicate_succ]⟩
              · exact Or.inr ⟨c2, tail2, ha, hb, by rw [← h1, hcc], by
                  rw [← h3, hd, List.replicate_succ, List.cons_append]⟩
      · have hred : resolveDns (DnsAttempt.err c :: rest) =
            some ([], 0, [c]) := by
          simp only [resolveDns]
          rw [if_neg hc]
        constructor
        · constructor
          · intro h; rw [hred] at h; cases h
          · intro h
            have := h (DnsAttempt.err c) (List.mem_cons_self _ _)
            injection this with h2
            exact absurd h2 hc
        · intro res ms logs h
          rw [hred] at h
          obtain ⟨h1, h2, h3⟩ : ([] : List String) = res ∧ 0 = ms ∧
              [c] = logs := by
            injection h with h
            injection h with h1 h
            injection h with h2 h3
            exact ⟨h1, h2, h3⟩
          refine ⟨0, DnsAttempt.err c :: rest, by simp, by omega, ?_⟩
          exact Or.inr ⟨c, rest, rfl, hc, h1.symm, by rw [← h3]; rfl⟩

theorem C8_resolve_dns_retry_witness :
    (resolveDns [DnsAttempt.err (-3), DnsAttempt.ok ["192.0.2.7"]] =
      some (["192.0.2.7"], 500, [-3])) ∧
    (∃ k rest2,
      [DnsAttempt.err (-3), DnsAttempt.ok ["192.0.2.7"]] =
        List.replicate k (DnsAttempt.err eaiAgain) ++ rest2 ∧
      500 = 500 * k ∧
      ((∃ l tail2, rest2 = DnsAttempt.ok l :: tail2 ∧
          ["192.0.2.7"] = l.dedup ∧ [(-3 : Int)] = List.replicate k eaiAgain) ∨
       (∃ c tail2, rest2 = DnsAttempt.err c :: tail2 ∧ c ≠ eaiAgain ∧
          ["192.0.2.7"] = ([] : List String) ∧
          [(-3 : Int)] = List.replicate k eaiAgain ++ [c]))) :=
  ⟨by decide,
    (C8_resolve_dns_retry [DnsAttempt.err (-3), DnsAttempt.ok
      ["192.0.2.7"]]).2 ["192.0.2.7"] 500 [-3] (by decide)⟩

/-! ### URL hostname extraction (genalias.py lines 127-132)

The run loop executes domains.add(urlsplit(url, scheme='http').hostname)
for every URL token, logging and skipping tokens whose parsing raises.
We embed the relevant path of CPython's urllib.parse.urlsplit on lists of
characters: strip a scheme when a first colon at a positive position is
preceded only by scheme characters, parse a netloc only when the
remainder begins with two slashes (the netloc ends at the first of
slash, question mark or hash; mismatched square brackets raise
ValueError), and read the hostname from the netloc: the part after the
last at sign, then the bracketed part if a bracket is present and
otherwise the part before the first colon, lowercased, with the empty
host giving None. -/

/-- A character allowed in a URL scheme (letters, digits, plus, minus,
dot). -/
def isSchemeChar (c : Char) : Bool :=
  c.isAlpha || c.isDigit || c == '+' || c == '-' || c == '.'

/-- The scheme-splitting scan of urlsplit: walk to the first colon; when
the characters before it form a non-empty run of scheme characters the
scheme is that prefix lowercased and the rest follows the colon,
otherwise the default scheme is kept and the URL is left whole. -/
def splitSchemeGo (dflt whole : List Char) :
    List Char → List Char → List Char × List Char
  | _, [] => (dflt, whole)
  | acc, c :: rest =>
    if c = ':' then
      if acc ≠ [] ∧ acc.all isSchemeChar = true then
        (acc.map Char.toLower, rest)
      else (dflt, whole)
    else splitSchemeGo dflt whole (acc ++ [c]) rest

/-- urlsplit's scheme handling with a default scheme. -/
def splitScheme (dflt url : List Char) : List Char × List Char :=
  splitSchemeGo dflt url [] url

/-- _splitnetloc: the netloc runs until the first of slash, question mark
or hash. -/
def netlocDelim (c : Char) : Bool := c == '/' || c == '?' || c == '#'

/-- netloc.rpartition at the last at sign, keeping the part after it (the
whole netloc when there is none). -/
def afterLastAt (l : List Char) : List Char :=
  (l.reverse.takeWhile (fun c => c ≠ '@')).reverse

/-- The _hostinfo/hostname computation on a netloc: drop userinfo, read a
bracketed IPv6 host if an opening bracket is present and otherwise stop
at the first colon, lowercase, and return None for an empty host. -/
def hostnameOf (netloc : List Char) : Option (List Char) :=
  let hostinfo := afterLastAt netloc
  let host :=
    if hostinfo.contains '[' then
      ((hostinfo.dropWhile (fun c => c ≠ '[')).drop 1).takeWhile
        (fun c => c ≠ ']')
    else hostinfo.takeWhile (fun c => c ≠ ':')
  if host.isEmpty then none else some (host.map Char.toLower)

/-- urlsplit raises ValueError on a netloc with mismatched square
brackets. -/
def bracketMismatch (netloc : List Char) : Bool :=
  (netloc.contains '[' && !netloc.contains ']') ||
    (netloc.contains ']' && !netloc.contains '[')

/-- urlsplit(url, scheme=scheme0).hostname: error when parsing raises,
otherwise the hostname option.  A netloc, and hence a non-None hostname,
exists only when the remainder after scheme handling starts with two
slashes. -/
def urlsplitHostname (scheme0 url : List Char) :
    Except Unit (Option (List Char)) :=
  let su := splitScheme scheme0 url
  if (su.2.take 2) = ['/', '/'] then
    let netloc := (su.2.drop 2).takeWhile (fun c => !netlocDelim c)
    if bracketMismatch netloc then .error ()
    else .ok (hostnameOf netloc)
  else .ok (hostnameOf [])

/-- The default scheme the program passes to urlsplit. -/
def httpScheme : List Char := ['h', 't', 't', 'p']

/-- The run loop's treatment of one URL token: a token whose parsing
raises is logged and skipped; otherwise the hostname option (None
included, Python sets can hold None) is added to the domain set. -/
def addDomainFromUrl (domains : List (Option (List Char)))
    (url : List Char) : List (Option (List Char)) :=
  match urlsplitHostname httpScheme url with
  | .error _ => domains
  | .ok h => if h ∈ domains then domains else domains ++ [h]

lemma splitSchemeGo_no_colon (dflt whole : List Char) :
    ∀ (u acc : List Char), (∀ c ∈ u, c ≠ ':') →
      splitSchemeGo dflt whole acc u = (dflt, whole) := by
  intro u
  induction u with
  | nil => intro acc _; rfl
  | cons c rest ih =>
    intro acc h
    have hc : ¬ (c = ':') := h c (List.mem_cons_self _ _)
    simp only [splitSchemeGo, if_neg hc]
    exact ih (acc ++ [c]) (fun d hd => h d (List.mem_cons_of_mem _ hd))

lemma hostnameOf_nil : hostnameOf [] = none := rfl

lemma takeWhile_append_of_all {p : Char → Bool} :
    ∀ (xs : List Char) (y : Char) (ys : List Char),
      (∀ c ∈ xs, p c = true) → p y = false →
      (xs ++ y :: ys).takeWhile p = xs := by
  intro xs
  induction xs with
  | nil =>
    intro y ys _ hy
    simp [List.takeWhile_cons, hy]
  | cons x xs2 ih =>
    intro y ys hall hy
    have hx : p x = true := hall x (List.mem_cons_self _ _)
    simp [List.takeWhile_cons, hx,
      ih y ys (fun c hc => hall c (List.mem_cons_of_mem _ hc)) hy]

lemma contains_eq_false_of_not_mem {l : List Char} {c : Char}
    (h : c ∉ l) : l.contains c = false := by
  simpa using h

/-- A host made of ordinary characters only (no delimiter, colon, at sign
or bracket) keeps its hostname through the netloc computation. -/
lemma hostnameOf_plain (host : List Char) (hne : host ≠ [])
    (hall : ∀ c ∈ host,
      ¬ (c = '/' ∨ c = '?' ∨ c = '#' ∨ c = ':' ∨ c = '@' ∨
         c = '[' ∨ c = ']')) :
    hostnameOf host = some (host.map Char.toLower) := by
  have hat : afterLastAt host = host := by
    unfold afterLastAt
    rw [List.takeWhile_eq_self_iff.mpr, List.reverse_reverse]
    intro c hc
    have := hall c (List.mem_reverse.mp hc)
    simp only [decide_eq_true_eq]
    tauto
  have hbr2 : '[' ∉ host := fun hmem => hall _ hmem (by tauto)
  have hcol2 : List.takeWhile (fun c => !decide (c = ':')) host = host := by
    rw [List.takeWhile_eq_self_iff.mpr]
    intro c hc
    have h2 := hall c hc
    have h3 : ¬ (c = ':') := by tauto
    simp [h3]
  unfold hostnameOf
  simp [hat, hbr2, hcol2, hne]

/-- A token without a colon and not starting with two slashes parses
without error but yields no hostname: the assumed default scheme only
fills the scheme field and does not make the bare host parse as a
netloc. -/
lemma urlsplitHostname_bare (url : List Char) (hnc : ∀ c ∈ url, c ≠ ':')
    (htake : url.take 2 ≠ ['/', '/']) :
    urlsplitHostname httpScheme url = .ok none := by
  unfold urlsplitHostname splitScheme
  rw [splitSchemeGo_no_colon httpScheme url url [] hnc]
  simp [htake, hostnameOf_nil]

/-- A token with an explicit scheme and authority yields its lowercased
host. -/
lemma urlsplitHostname_scheme (host path : List Char) (hne : host ≠ [])
    (hall : ∀ c ∈ host,
      ¬ (c = '/' ∨ c = '?' ∨ c = '#' ∨ c = ':' ∨ c = '@' ∨
         c = '[' ∨ c = ']')) :
    urlsplitHostname httpScheme
        ('h' :: 't' :: 't' :: 'p' :: ':' :: '/' :: '/' ::
          (host ++ '/' :: path)) =
      .ok (some (host.map Char.toLower)) := by
  have hsplit : splitScheme httpScheme
      ('h' :: 't' :: 't' :: 'p' :: ':' :: '/' :: '/' ::
        (host ++ '/' :: path)) =
      (['h', 't', 't', 'p'], '/' :: '/' :: (host ++ '/' :: path)) := rfl
  have hnet : (host ++ '/' :: path).takeWhile (fun c => !netlocDelim c)
      = host := by
    apply takeWhile_append_of_all
    · intro c hc
      have h2 := hall c hc
      have h3 : ¬ (c = '/') ∧ ¬ (c = '?') ∧ ¬ (c = '#') := by tauto
      simp [netlocDelim, h3.1, h3.2.1, h3.2.2]
    · simp [netlocDelim]
  have hbm : bracketMismatch host = false := by
    have h1 : '[' ∉ host := fun hm => hall _ hm (by tauto)
    have h2 : ']' ∉ host := fun hm => hall _ hm (by tauto)
    simp only [bracketMismatch, contains_eq_false_of_not_mem h1,
      contains_eq_false_of_not_mem h2, Bool.false_and, Bool.and_false,
      Bool.not_false, Bool.or_false, Bool.false_or, Bool.and_true,
      Bool.true_and]
  unfold urlsplitHostname
  rw [hsplit]
  simp [hnet, hbm, hostnameOf_plain host hne hall]

instance {e a : Type} [DecidableEq e] [DecidableEq a] :
    DecidableEq (Except e a) := fun x y =>
  match x, y with
  | .error e1, .error e2 =>
    if h : e1 = e2 then .isTrue (by rw [h])
    else .isFalse (by intro hh; injection hh with h2; exact h h2)
  | .error _, .ok _ => .isFalse (by intro hh; cases hh)
  | .ok _, .error _ => .isFalse (by intro hh; cases hh)
  | .ok a1, .ok a2 =>
    if h : a1 = a2 then .isTrue (by rw [h])
    else .isFalse (by intro hh; injection hh with h2; exact h h2)

/-! ### Claim C9 (corrected) -/

/-- Claim C9, counterexample to the claim as stated: the bare token
example.com/path (no scheme, no leading double slash) parses without
raising, but its hostname is None, not example.com: the run loop adds
Python's None to the domain set instead of the token's host. -/
theorem C9_url_hostname_counterexample :
    urlsplitHostname httpScheme ("example.com/path".toList) ≠
      Except.ok (some ("example.com".toList)) ∧
    urlsplitHostname httpScheme ("example.com/path".toList) =
      Except.ok none ∧
    addDomainFromUrl [] ("example.com/path".toList) = [none] := by
  decide

/-- Claim C9, amended: for every URL-field token the hostname component
is extracted with urlsplit under an assumed default scheme, but the
default scheme only fills the scheme field: a bare host/path token (no
colon, no leading double slash) parses without error and yields no
hostname, contributing Python's None to the domain set rather than its
host; a hostname is extracted (lowercased) when the token carries an
explicit scheme and a double-slash authority; only tokens whose URL
parsing raises are logged and skipped, contributing nothing. -/
theorem C9_url_hostname_extraction :
    (∀ url : List Char, (∀ c ∈ url, c ≠ ':') → url.take 2 ≠ ['/', '/'] →
      urlsplitHostname httpScheme url = .ok none) ∧
    (∀ (domains : List (Option (List Char))) (url : List Char),
      (∀ c ∈ url, c ≠ ':') → url.take 2 ≠ ['/', '/'] →
      addDomainFromUrl domains url =
        if none ∈ domains then domains else domains ++ [none]) ∧
    (∀ host path : List Char, host ≠ [] →
      (∀ c ∈ host,
        ¬ (c = '/' ∨ c = '?' ∨ c = '#' ∨ c = ':' ∨ c = '@' ∨
           c = '[' ∨ c = ']')) →
      urlsplitHostname httpScheme
          ('h' :: 't' :: 't' :: 'p' :: ':' :: '/' :: '/' ::
            (host ++ '/' :: path)) =
        .ok (some (host.map Char.toLower))) ∧
    (∀ (domains : List (Option (List Char))) (url : List Char),
      urlsplitHostname httpScheme url = .error () →
      addDomainFromUrl domains url = domains) := by
  refine ⟨urlsplitHostname_bare, ?_, urlsplitHostname_scheme, ?_⟩
  · intro domains url hnc htake
    unfold addDomainFromUrl
    rw [urlsplitHostname_bare url hnc htake]
  · intro domains url h
    unfold addDomainFromUrl
    rw [h]

theorem C9_url_hostname_extraction_witness :
    ((∀ c ∈ "example.com/path".toList, c ≠ ':') ∧
      ("example.com/path".toList).take 2 ≠ ['/', '/'] ∧
      "abc".toList ≠ ([] : List Char) ∧
      (∀ c ∈ "abc".toList,
        ¬ (c = '/' ∨ c = '?' ∨ c = '#' ∨ c = ':' ∨ c = '@' ∨
           c = '[' ∨ c = ']')) ∧
      urlsplitHostname httpScheme ("http://[x".toList) = .error ()) ∧
    (urlsplitHostname httpScheme ("example.com/path".toList) =
        .ok none ∧
      addDomainFromUrl [] ("example.com/path".toList) = [none] ∧
      urlsplitHostname httpScheme
          ('h' :: 't' :: 't' :: 'p' :: ':' :: '/' :: '/' ::
            ("abc".toList ++ '/' :: "p".toList)) =
        .ok (some (("abc".toList).map Char.toLower)) ∧
      addDomainFromUrl [some ("x".toList)] ("http://[x".toList) =
        [some ("x".toList)]) :=
  ⟨⟨by decide, by decide, by decide, by decide, by decide⟩,
    C9_url_hostname_extraction.1 ("example.com/path".toList) (by decide)
      (by decide),
    (C9_url_hostname_extraction.2.1 [] ("example.com/path".toList)
      (by decide) (by decide)).trans (by decide),
    C9_url_hostname_extraction.2.2.1 ("abc".toList) ("p".toList)
      (by decide) (by decide),
    C9_url_hostname_extraction.2.2.2 [some ("x".toList)]
      ("http://[x".toList) (by decide)⟩

/-! ### Claim C10: run's unconditional header skip
(genalias.py lines 72-76) -/

/-- run's entry, modelled over the stream of records the csv reader
yields, each record carrying its already-parsed subnet tokens (domain
resolution disabled).  The very first statement executes next(reader) to
skip the header record; on an exhausted reader (empty input) that raises
StopIteration, which nothing catches, so the run aborts.  Otherwise the
header's content is ignored entirely and the remaining records feed the
add_addr/merge pipeline. -/
def runModel (rows : List (List NetV4)) : Except Unit (List NetV4) :=
  match rows with
  | [] => .error ()
  | _ :: rest => .ok (pipelineV4 rest.flatten)

/-- Claim C10: on an input stream with no records at all, run fails while
unconditionally skipping the expected header record, aborting instead of
producing empty output; on any non-empty stream the first record is
skipped no matter what it contains and only the remaining records are
processed. -/
theorem C10_empty_input_aborts :
    runModel [] = .error () ∧
    (∀ out : List NetV4, runModel [] ≠ .ok out) ∧
    (∀ (header : List NetV4) (rest : List (List NetV4)),
      runModel (header :: rest) = .ok (pipelineV4 rest.flatten)) :=
  ⟨rfl, fun _ h => Except.noConfusion h, fun _ _ => rfl⟩

theorem C10_empty_input_aborts_witness :
    runModel [] ≠ .ok ([] : List NetV4) ∧
    runModel [[⟨167772160, 8⟩], [⟨16777216, 24⟩]] =
      .ok (pipelineV4 [⟨16777216, 24⟩]) :=
  ⟨C10_empty_input_aborts.2.1 [],
    (C10_empty_input_aborts.2.2 [⟨167772160, 8⟩] [[⟨16777216, 24⟩]]).trans
      (by decide)⟩

end Genalias
